import Mathlib

/-!
Verification of the caching / merging subsystem of genveje.dk.

Shallow embedding conventions:
* JavaScript strings are embedded as `List Nat` of UTF-16 code units.
* JavaScript numbers are embedded as `Int`/`Nat` with explicit 32-bit
  wrapping (`toInt32`) exactly where the source applies a bitwise
  operator (which coerces to a signed 32-bit integer in JS).
* Stateful/concurrent code (cache manager, cron scheduler) is embedded
  as explicit step functions over small state types, with one atomic
  step per block of synchronous code between `await` suspension points.
-/

namespace Genveje

/-- UTF-16 code units of a (ASCII / Latin-1) string literal, used to build
concrete JavaScript-string values for tests and counterexamples. -/
def js (s : String) : List Nat := s.data.map Char.toNat

/-- Code units treated as whitespace by `String.prototype.trim`
(ASCII whitespace, NBSP, line/paragraph separator, BOM). -/
def isWs (c : Nat) : Bool :=
  decide (c = 9 ∨ c = 10 ∨ c = 11 ∨ c = 12 ∨ c = 13 ∨ c = 32 ∨ c = 160 ∨
    c = 8232 ∨ c = 8233 ∨ c = 65279)

/-- Per-code-unit model of `String.prototype.toLowerCase` on the
ASCII and Latin-1 ranges (A–Z and À–Þ map by +32, `×` excepted). -/
def toLowerCode (c : Nat) : Nat :=
  if 65 ≤ c ∧ c ≤ 90 then c + 32
  else if 192 ≤ c ∧ c ≤ 222 ∧ c ≠ 215 then c + 32
  else c

/-- Model of `s.toLowerCase()`. -/
def jsToLowerCase (l : List Nat) : List Nat := l.map toLowerCode

/-- Leading-whitespace removal (the front half of `s.trim()`). -/
def trimLeft (l : List Nat) : List Nat := l.dropWhile isWs

/-- Trailing-whitespace removal (the back half of `s.trim()`). -/
def trimRight (l : List Nat) : List Nat :=
  l.foldr (fun a acc => if acc.isEmpty && isWs a then [] else a :: acc) []

/-- Model of `s.trim()`: drop whitespace from both ends. -/
def jsTrim (l : List Nat) : List Nat := trimRight (trimLeft l)

/-- ECMAScript `ToInt32`: wrap an exact integer to the signed 32-bit range.
This is applied by every JavaScript bitwise operator, in particular by
the `hash << 5` in `generateCategoryId` (src/app/lib/types.ts:236). -/
def toInt32 (x : Int) : Int :=
  let r := x % 4294967296
  if r < 2147483648 then r else r - 4294967296

/-- Embedding of `generateCategoryId` (src/app/lib/types.ts:230-243).
The JS update `hash = ((hash << 5) + hash) + charCode` is
`toInt32 (h * 32) + h + c` in exact integer arithmetic: the shift
coerces its operand to int32 and wraps, the two additions are exact
(double-precision additions on integers far below 2^53). -/
def generateCategoryId (categoryName source : List Nat) : Nat :=
  let normalized := jsTrim (jsToLowerCase categoryName)
  let hash : Int := normalized.foldl (fun (h : Int) (c : Nat) => toInt32 (h * 32) + h + (c : Int)) 5381
  let r := hash.natAbs % 1000000
  if r = 0 then 1 else r

/-- Reference definition following the spec's words (§4.1 of spec.md):
DJB2 in exact integer arithmetic, `hash = hash*33 + charCode` with no
32-bit wrapping, then `abs(hash) mod 1_000_000`, with 0 replaced by 1.
Stated per the spec purely to compare against `generateCategoryId`. -/
def specCategoryId (name : List Nat) : Nat :=
  let normalized := jsTrim (jsToLowerCase name)
  let hash : Int := normalized.foldl (fun (h : Int) (c : Nat) => h * 33 + (c : Int)) 5381
  let r := hash.natAbs % 1000000
  if r = 0 then 1 else r

/-- The spec's DJB2 recurrence amended with JavaScript 32-bit shift
semantics: `h ↦ toInt32(h * 32) + h + c`, written as explicit recursion. -/
def djb2wrapGo (h : Int) : List Nat → Int
  | [] => h
  | c :: r => djb2wrapGo (toInt32 (h * 32) + h + (c : Int)) r

/-- Category id per the amended spec wording: DJB2 over the normalized
name where the doubling step wraps at 32 bits as JS `<<` does. -/
def specCategoryId32 (name : List Nat) : Nat :=
  let hash := djb2wrapGo 5381 (jsTrim (jsToLowerCase name))
  let r := hash.natAbs % 1000000
  if r = 0 then 1 else r

section StringLemmas

theorem isWs_toLowerCode (c : Nat) : isWs (toLowerCode c) = isWs c := by
  unfold toLowerCode
  split
  · next h =>
    have h1 : isWs (c + 32) = false := by
      simp only [isWs, decide_eq_false_iff_not]; omega
    have h2 : isWs c = false := by
      simp only [isWs, decide_eq_false_iff_not]; omega
    rw [h1, h2]
  · split
    · next h h' =>
      have h1 : isWs (c + 32) = false := by
        simp only [isWs, decide_eq_false_iff_not]; omega
      have h2 : isWs c = false := by
        simp only [isWs, decide_eq_false_iff_not]; omega
      rw [h1, h2]
    · rfl

theorem toLowerCode_idem (c : Nat) : toLowerCode (toLowerCode c) = toLowerCode c := by
  unfold toLowerCode
  split
  · next h => split <;> [omega; (split <;> [omega; rfl])]
  · split
    · next h h' => split <;> [omega; (split <;> [omega; rfl])]
    · rfl

theorem jsToLowerCase_idem (l : List Nat) :
    jsToLowerCase (jsToLowerCase l) = jsToLowerCase l := by
  simp only [jsToLowerCase, List.map_map]
  exact List.map_congr_left fun c _ => toLowerCode_idem c

theorem trimLeft_lower_comm (l : List Nat) :
    trimLeft (jsToLowerCase l) = jsToLowerCase (trimLeft l) := by
  induction l with
  | nil => rfl
  | cons a t ih =>
    simp only [jsToLowerCase, List.map_cons, trimLeft, List.dropWhile_cons] at *
    rw [isWs_toLowerCode a]
    by_cases h : isWs a
    · simp only [h, if_true, reduceIte] at *
      exact ih
    · simp [h]

theorem trimRight_cons (a : Nat) (l : List Nat) :
    trimRight (a :: l) = if (trimRight l).isEmpty && isWs a then [] else a :: trimRight l :=
  rfl

theorem trimRight_lower_comm (l : List Nat) :
    trimRight (jsToLowerCase l) = jsToLowerCase (trimRight l) := by
  induction l with
  | nil => rfl
  | cons a t ih =>
    show trimRight (toLowerCode a :: jsToLowerCase t) = _
    rw [trimRight_cons, trimRight_cons, ih, isWs_toLowerCode a]
    by_cases h : isWs a <;> cases e : trimRight t <;>
      simp [h, e, jsToLowerCase]

theorem jsTrim_lower_comm (l : List Nat) :
    jsTrim (jsToLowerCase l) = jsToLowerCase (jsTrim l) := by
  unfold jsTrim
  rw [trimLeft_lower_comm, trimRight_lower_comm]

theorem trimLeft_idem (l : List Nat) : trimLeft (trimLeft l) = trimLeft l := by
  unfold trimLeft
  induction l with
  | nil => rfl
  | cons a t ih =>
    rw [List.dropWhile_cons]
    by_cases h : isWs a
    · simp [h, ih]
    · simp [List.dropWhile_cons, h]

theorem trimRight_idem (l : List Nat) : trimRight (trimRight l) = trimRight l := by
  induction l with
  | nil => rfl
  | cons a t ih =>
    rw [trimRight_cons]
    cases e : trimRight t with
    | nil =>
      by_cases h : isWs a
      · simp [h, trimRight]
      · simp [h, trimRight_cons, trimRight]
    | cons b u =>
      rw [e] at ih
      simp [trimRight_cons, ih]

theorem trimLeft_fix_of_head (a : Nat) (t : List Nat) (h : isWs a = false) :
    trimLeft (a :: t) = a :: t := by
  simp [trimLeft, List.dropWhile_cons, h]

theorem trimLeft_trimRight (l : List Nat) (h : trimLeft l = l) :
    trimLeft (trimRight l) = trimRight l := by
  cases l with
  | nil => rfl
  | cons a t =>
    have ha : isWs a = false := by
      by_contra hc
      simp only [Bool.not_eq_false] at hc
      simp only [trimLeft, List.dropWhile_cons, hc, if_true, reduceIte] at h
      have hlen := (List.dropWhile_suffix (l := t) isWs).sublist.length_le
      rw [h] at hlen
      simp at hlen
    rw [trimRight_cons]
    rw [ha]
    simp only [Bool.and_false, if_false, reduceIte]
    exact trimLeft_fix_of_head a (trimRight t) ha

theorem jsTrim_idem (l : List Nat) : jsTrim (jsTrim l) = jsTrim l := by
  unfold jsTrim
  rw [trimLeft_trimRight (trimLeft l) (trimLeft_idem l), trimRight_idem]

/-- Normalizing an already-normalized name is the identity:
`trim(lower(trim(lower(n)))) = trim(lower(n))`. -/
theorem jsNormalize_idem (l : List Nat) :
    jsTrim (jsToLowerCase (jsTrim (jsToLowerCase l))) = jsTrim (jsToLowerCase l) := by
  rw [jsTrim_lower_comm (jsTrim (jsToLowerCase l)), jsTrim_idem (jsToLowerCase l),
    jsTrim_lower_comm l, jsToLowerCase_idem]

end StringLemmas

section CategoryIdTheorems

theorem foldl_eq_djb2wrapGo (l : List Nat) (h : Int) :
    l.foldl (fun (h : Int) (c : Nat) => toInt32 (h * 32) + h + (c : Int)) h = djb2wrapGo h l := by
  induction l generalizing h with
  | nil => rfl
  | cons c r ih => simp only [List.foldl_cons, djb2wrapGo, ih]

theorem idClamp_range (r : Nat) (h : r < 1000000) :
    1 ≤ (if r = 0 then 1 else r) ∧ (if r = 0 then 1 else r) ≤ 999999 := by
  split <;> omega

/-- C4 counterexample: on the concrete category name "Mode", the source's
`generateCategoryId` (JS `<<` wraps the hash at 32 bits) returns 515018,
while the exact-integer DJB2 reference of the claim returns 482314, so the
claimed equality fails. -/
theorem generateCategoryId_ne_exact_djb2 :
    generateCategoryId (js "Mode") (js "partnerads") = 515018 ∧
    specCategoryId (js "Mode") = 482314 ∧
    generateCategoryId (js "Mode") (js "partnerads") ≠ specCategoryId (js "Mode") :=
  ⟨by decide, by decide, by decide⟩

/-- C4 (amended): for every name and source, `generateCategoryId` equals the
spec's DJB2 reference amended so that the doubling step wraps to a signed
32-bit integer (`h ↦ toInt32(h*32) + h + c`), as JS `hash << 5` does;
the remaining steps (lowercase, trim, `abs`, `mod 1_000_000`, `0 ↦ 1`)
are exactly the spec's. -/
theorem generateCategoryId_eq_wrapped_djb2 (name source : List Nat) :
    generateCategoryId name source = specCategoryId32 name := by
  simp only [generateCategoryId, specCategoryId32, foldl_eq_djb2wrapGo]

/-- C7: the id is always in `[1, 999999]`, and pre-normalizing the name
(lowercase then trim) never changes the id. -/
theorem generateCategoryId_range_and_normalized (n s : List Nat) :
    1 ≤ generateCategoryId n s ∧ generateCategoryId n s ≤ 999999 ∧
    generateCategoryId (jsTrim (jsToLowerCase n)) s = generateCategoryId n s := by
  refine ⟨?_, ?_, ?_⟩
  · exact (idClamp_range _ (Nat.mod_lt _ (by norm_num))).1
  · exact (idClamp_range _ (Nat.mod_lt _ (by norm_num))).2
  · simp only [generateCategoryId, jsNormalize_idem]

/-- C10: the `source` parameter of `generateCategoryId` has no influence on
the result, so the spec's one-argument signature is faithful. -/
theorem generateCategoryId_source_independent (n s1 s2 : List Nat) :
    generateCategoryId n s1 = generateCategoryId n s2 := rfl

end CategoryIdTheorems

/-! ## Affiliate merger (src/app/lib/affiliate-merger.server.ts) -/

/-- The `source` field of a merchant: `'partnerads' | 'adtraction'`. -/
inductive NetworkSource
  | partnerads
  | adtraction
deriving DecidableEq, Repr

/-- Embedding of the `Merchant` interface (src/app/lib/types.ts:28-36). -/
structure Merchant where
  programid : List Nat
  programnavn : List Nat
  programurl : List Nat
  affiliatelink : List Nat
  kategoriid : Nat
  status : List Nat
  source : NetworkSource
deriving DecidableEq, Repr

/-- Embedding of the `Category` interface (src/app/lib/types.ts:66-70). -/
structure Category where
  id : Nat
  name : List Nat
  merchants : List Merchant
deriving DecidableEq, Repr

/-- Embedding of the `AffiliateData` interface (src/app/lib/types.ts:96-99). -/
structure AffiliateData where
  categories : List Category
  lastUpdated : Nat
deriving DecidableEq, Repr

/-- Model of `.replace(/\/$/, '')`: remove one trailing `/` (code 47) if present. -/
def dropTrailingSlash (l : List Nat) : List Nat :=
  if l.getLast? = some 47 then l.dropLast else l

/-- The `(www\.)?` part of the scheme regex: optionally remove a leading
`www.` (codes 119 119 119 46). -/
def dropWWW (l : List Nat) : List Nat :=
  match l with
  | 119 :: 119 :: 119 :: 46 :: rest => rest
  | _ => l

/-- Model of `.replace(/^https?:\/\/(www\.)?/, '')`: remove a leading `http://` or
`https://` and, when the scheme matched, an optional `www.`. -/
def dropScheme (l : List Nat) : List Nat :=
  match l with
  | 104 :: 116 :: 116 :: 112 :: 115 :: 58 :: 47 :: 47 :: rest => dropWWW rest
  | 104 :: 116 :: 116 :: 112 :: 58 :: 47 :: 47 :: rest => dropWWW rest
  | _ => l

/-- Embedding of `normalizeUrl` (affiliate-merger.server.ts:16-21):
lowercase, remove one trailing slash, strip scheme and `www.`. -/
def normalizeUrl (url : List Nat) : List Nat :=
  dropScheme (dropTrailingSlash (jsToLowerCase url))

/-- The per-category dedup walk (affiliate-merger.server.ts:109-152):
skip merchants whose URL is blank or normalizes to blank, keep the first
merchant seen for each normalized URL, drop later duplicates. -/
def dedupGo (seen : List (List Nat)) : List Merchant → List Merchant
  | [] => []
  | m :: rest =>
    if jsTrim m.programurl = [] then dedupGo seen rest
    else
      let nu := normalizeUrl m.programurl
      if jsTrim nu = [] then dedupGo seen rest
      else if nu ∈ seen then dedupGo seen rest
      else m :: dedupGo (nu :: seen) rest

/-- The function `dedupMerchants` starts the walk with an empty `seenUrls` map. -/
def dedupMerchants (ms : List Merchant) : List Merchant := dedupGo [] ms

/-- An entry of the merger's `categoryMap`. The `merchants` list models the
JS array that the map entry holds — on first insertion this array is the
*same object* as the input category's array (`merchants: category.merchants`,
affiliate-merger.server.ts:70-74), which is what makes the merge mutate
its inputs when a later category pushes into it. -/
structure MapEntry where
  key : List Nat
  id : Nat
  name : List Nat
  merchants : List Merchant
deriving DecidableEq, Repr

/-- The map key `category.name.toLowerCase().trim()` (line 65/87). -/
def keyOfCat (c : Category) : List Nat := jsTrim (jsToLowerCase c.name)

/-- Model of `existing.merchants.push(...category.merchants)` on the first entry
with the given key (JS `Map` holds at most one entry per key). -/
def pushMerchants (m : List MapEntry) (k : List Nat) (ms : List Merchant) : List MapEntry :=
  match m with
  | [] => []
  | e :: rest =>
    if e.key = k then { e with merchants := e.merchants ++ ms } :: rest
    else e :: pushMerchants rest k ms

/-- Model of `categoryMap.has(key)`. -/
def hasKey : List MapEntry → List Nat → Bool
  | [], _ => false
  | e :: rest, k => if e.key = k then true else hasKey rest k

/-- One iteration of the category loop (lines 64-78 for Partner-ads,
84-100 for Adtraction): insert a fresh entry, or append merchants to the
existing entry with the same key. -/
def insertCat (m : List MapEntry) (c : Category) : List MapEntry :=
  if hasKey m (keyOfCat c) then pushMerchants m (keyOfCat c) c.merchants
  else m ++ [⟨keyOfCat c, c.id, c.name, c.merchants⟩]

/-- Folding a whole catalog's categories into the map, preserving JS `Map`
insertion order. -/
def buildMap (m : List MapEntry) (cats : List Category) : List MapEntry :=
  cats.foldl insertCat m

/-- Lookup in the style of `categoryMap.get(key)` (first entry with the key). -/
def findEntry : List MapEntry → List Nat → Option MapEntry
  | [], _ => none
  | e :: rest, k => if e.key = k then some e else findEntry rest k

/-- The dedup phase applied to one map entry (`category.merchants =
uniqueMerchants`, line 152), producing the output category object. -/
def dedupEntry (e : MapEntry) : Category :=
  { id := e.id, name := e.name, merchants := dedupMerchants e.merchants }

/-- Stable ascending insertion by category id, modelling the output
contract of `.sort((a, b) => a.id - b.id)` (JS sort is stable). -/
def insertSorted (c : Category) (l : List Category) : List Category :=
  match l with
  | [] => [c]
  | d :: rest => if c.id ≤ d.id then c :: d :: rest else d :: insertSorted c rest

/-- Stable sort of the output categories by ascending id (line 161). -/
def sortByCatId (l : List Category) : List Category := l.foldr insertSorted []

/-- The `categories` list of an optional catalog (empty when `null`). -/
def catsOf (x : Option AffiliateData) : List Category :=
  (x.map (fun d => d.categories)).getD []

/-- The `lastUpdated` of an optional catalog (`?.lastUpdated || 0`). -/
def lastUpdatedOf (x : Option AffiliateData) : Nat :=
  (x.map (fun d => d.lastUpdated)).getD 0

/-- The final `categoryMap` after both catalogs have been folded in
(Partner-ads first, then Adtraction). -/
def mergedMap (a b : Option AffiliateData) : List MapEntry :=
  buildMap (buildMap [] (catsOf a)) (catsOf b)

/-- Embedding of the value returned by `mergeAffiliateData`
(affiliate-merger.server.ts:36-182). `now` stands for `Date.now()` at the
end of the call. -/
def mergeAffiliateData (a b : Option AffiliateData) (now : Nat) : AffiliateData :=
  match a, b with
  | none, none => { categories := [], lastUpdated := now }
  | _, _ =>
    { categories :=
        sortByCatId (((mergedMap a b).map dedupEntry).filter
          (fun c => 0 < c.merchants.length))
      lastUpdated := max (max (lastUpdatedOf a) (lastUpdatedOf b)) now }

/-- Post-call contents of one input catalog's category list. A category is
the *owner* of its key when it is the first category inserted under that
key; the map entry's merchant array is that category's own array, so after
the call the owner's array holds every same-key merchant appended by later
categories (the pushes of lines 76/98 mutate it in place), while non-owner
categories are only read. `seen0` is the set of keys already owned before
this catalog is processed. -/
def postCats (finalMap : List MapEntry) (seen0 : List (List Nat)) :
    List Category → List Category
  | [] => []
  | c :: rest =>
    (if keyOfCat c ∈ seen0 then c
     else { c with merchants :=
        ((findEntry finalMap (keyOfCat c)).map (fun e => e.merchants)).getD c.merchants }) ::
      postCats finalMap (keyOfCat c :: seen0) rest

/-- The two input catalogs as they stand after `mergeAffiliateData`
returns (the heap effect of the aliasing described at `postCats`). -/
def mergePost (a b : Option AffiliateData) :
    Option AffiliateData × Option AffiliateData :=
  match a, b with
  | none, none => (none, none)
  | _, _ =>
    let fm := mergedMap a b
    (a.map (fun ad => { ad with categories := postCats fm [] ad.categories }),
     b.map (fun bd =>
       { bd with categories := postCats fm ((catsOf a).map keyOfCat) bd.categories }))

/-- A full call: returned value plus the post-call state of both inputs. -/
structure MergeRun where
  result : AffiliateData
  postA : Option AffiliateData
  postB : Option AffiliateData
deriving DecidableEq, Repr

/-- The function `mergeAffiliateData` as a call on the JS heap: output value and the
state of both argument objects after the call. -/
def mergeRun (a b : Option AffiliateData) (now : Nat) : MergeRun :=
  { result := mergeAffiliateData a b now
    postA := (mergePost a b).1
    postB := (mergePost a b).2 }

/-! ### Concrete merge scenario (spec §8) -/

/-- Catalog A's Zalando record, `programurl = "zalando.dk"`. -/
def zalandoA : Merchant :=
  { programid := js "pa-1"
    programnavn := js "Zalando"
    programurl := js "zalando.dk"
    affiliatelink := js "https://track.partner.example/z"
    kategoriid := 515018
    status := js "approved"
    source := .partnerads }

/-- Catalog B's Zalando record, `programurl = "zalando.dk/"` (same merchant
after URL normalization). -/
def zalandoB : Merchant :=
  { programid := js "ad-1"
    programnavn := js "Zalando DK"
    programurl := js "zalando.dk/"
    affiliatelink := js "https://track.adtraction.example/z"
    kategoriid := 515018
    status := js "approved"
    source := .adtraction }

/-- Catalog B's HM record, `programurl = "hm.com"`. -/
def hmB : Merchant :=
  { programid := js "ad-2"
    programnavn := js "HM"
    programurl := js "hm.com"
    affiliatelink := js "https://track.adtraction.example/h"
    kategoriid := 515018
    status := js "approved"
    source := .adtraction }

/-- Catalog A of the concrete scenario: one category "Mode" with Zalando. -/
def catalogA : AffiliateData :=
  { categories := [{ id := 515018, name := js "Mode", merchants := [zalandoA] }]
    lastUpdated := 1000 }

/-- Catalog B of the concrete scenario: one category "Mode" with Zalando
(trailing slash) and HM. -/
def catalogB : AffiliateData :=
  { categories := [{ id := 515018, name := js "Mode", merchants := [zalandoB, hmB] }]
    lastUpdated := 2000 }

/-- C5: merging the two concrete catalogs yields exactly one category
"Mode" with exactly A's Zalando record (first seen wins) followed by B's
HM record, and the three spelled-out URLs all normalize to the same dedup
key `"zalando.dk"`. -/
theorem merge_concrete_scenario :
    (mergeAffiliateData (some catalogA) (some catalogB) 3000).categories =
      [{ id := 515018, name := js "Mode", merchants := [zalandoA, hmB] }] ∧
    normalizeUrl (js "https://www.Zalando.dk/") = js "zalando.dk" ∧
    normalizeUrl (js "http://zalando.dk") = js "zalando.dk" ∧
    normalizeUrl (js "https://zalando.dk") = js "zalando.dk" :=
  ⟨by decide, by decide, by decide, by decide⟩

/-- C2 counterexample: on the concrete catalogs of the spec's own scenario,
`mergeAffiliateData` does *not* leave its first input unchanged — category
"Mode" of catalog A ends the call with B's merchants pushed into its
merchants array (the map entry aliases A's array and line 98 pushes into
it), so the function is not side-effect-free. -/
theorem mergeAffiliateData_mutates_input :
    (mergeRun (some catalogA) (some catalogB) 3000).postA =
      some { categories :=
              [{ id := 515018, name := js "Mode",
                 merchants := [zalandoA, zalandoB, hmB] }]
             lastUpdated := 1000 } ∧
    (mergeRun (some catalogA) (some catalogB) 3000).postA ≠ some catalogA :=
  ⟨by decide, by decide⟩

/-! ### Merger lemmas: the category map -/

section MergerLemmas

/-- Merchant list stored under key `k` (empty when the key is absent). -/
def merchantsOfKey (m : List MapEntry) (k : List Nat) : List Merchant :=
  ((findEntry m k).map (fun e => e.merchants)).getD []

/-- All merchants of the categories of `cats` whose key is `k`, in
iteration order. -/
def flatOfKey : List Category → List Nat → List Merchant
  | [], _ => []
  | c :: rest, k =>
    if keyOfCat c = k then c.merchants ++ flatOfKey rest k else flatOfKey rest k

/-- Keys of the map entries, in insertion order. -/
def keysOfMap (m : List MapEntry) : List (List Nat) := m.map (fun e => e.key)

theorem hasKey_false_iff (m : List MapEntry) (k : List Nat) :
    hasKey m k = false ↔ findEntry m k = none := by
  induction m with
  | nil => simp [hasKey, findEntry]
  | cons e rest ih =>
    by_cases h : e.key = k <;> simp [hasKey, findEntry, h, ih]

theorem merchantsOfKey_push (m : List MapEntry) (k : List Nat) (ms : List Merchant)
    (h : hasKey m k = true) :
    merchantsOfKey (pushMerchants m k ms) k = merchantsOfKey m k ++ ms := by
  induction m with
  | nil => simp [hasKey] at h
  | cons e rest ih =>
    by_cases he : e.key = k
    · simp [pushMerchants, merchantsOfKey, findEntry, he]
    · simp only [pushMerchants, he, if_false, reduceIte]
      simp only [hasKey, he, if_false, reduceIte] at h
      simpa [merchantsOfKey, findEntry, he] using ih h

theorem merchantsOfKey_push_ne (m : List MapEntry) (k k' : List Nat) (ms : List Merchant)
    (h : k ≠ k') :
    merchantsOfKey (pushMerchants m k ms) k' = merchantsOfKey m k' := by
  induction m with
  | nil => simp [pushMerchants]
  | cons e rest ih =>
    by_cases he : e.key = k
    · simp [pushMerchants, merchantsOfKey, findEntry, he, h]
    · by_cases he' : e.key = k'
      · simp [pushMerchants, merchantsOfKey, findEntry, he, he', Ne.symm h]
      · simpa [pushMerchants, merchantsOfKey, findEntry, he, he'] using ih

theorem merchantsOfKey_append_new (m : List MapEntry) (e : MapEntry)
    (h : hasKey m e.key = false) :
    merchantsOfKey (m ++ [e]) e.key = e.merchants := by
  induction m with
  | nil => simp [merchantsOfKey, findEntry]
  | cons f rest ih =>
    simp only [hasKey] at h
    by_cases hf : f.key = e.key
    · simp [hf] at h
    · simp only [hf, if_false, reduceIte] at h
      simpa [merchantsOfKey, findEntry, hf] using ih h

theorem merchantsOfKey_append_ne (m : List MapEntry) (e : MapEntry) (k : List Nat)
    (h : e.key ≠ k) :
    merchantsOfKey (m ++ [e]) k = merchantsOfKey m k := by
  induction m with
  | nil => simp [merchantsOfKey, findEntry, h]
  | cons f rest ih =>
    by_cases hf : f.key = k
    · simp [merchantsOfKey, findEntry, hf]
    · simpa [merchantsOfKey, findEntry, hf] using ih

/-- Inserting one category appends its merchants under its key and leaves
every other key's merchants unchanged. -/
theorem merchantsOfKey_insertCat (m : List MapEntry) (c : Category) (k : List Nat) :
    merchantsOfKey (insertCat m c) k =
      if keyOfCat c = k then merchantsOfKey m k ++ c.merchants
      else merchantsOfKey m k := by
  unfold insertCat
  by_cases hc : keyOfCat c = k
  · subst hc
    by_cases h : hasKey m (keyOfCat c)
    · simp [h, merchantsOfKey_push m (keyOfCat c) c.merchants h]
    · simp only [Bool.not_eq_true] at h
      have hnone := (hasKey_false_iff m (keyOfCat c)).mp h
      simp only [h, Bool.false_eq_true, if_false, reduceIte, if_pos rfl]
      rw [merchantsOfKey_append_new m ⟨keyOfCat c, c.id, c.name, c.merchants⟩ h]
      simp [merchantsOfKey, hnone]
  · by_cases h : hasKey m (keyOfCat c)
    · simp [h, merchantsOfKey_push_ne m (keyOfCat c) k c.merchants hc, hc]
    · simp only [Bool.not_eq_true] at h
      simp [h, merchantsOfKey_append_ne m ⟨keyOfCat c, c.id, c.name, c.merchants⟩ k hc, hc]

/-- The accumulated merchants of a key after folding a whole catalog in. -/
theorem merchantsOfKey_buildMap (cats : List Category) (m : List MapEntry) (k : List Nat) :
    merchantsOfKey (buildMap m cats) k = merchantsOfKey m k ++ flatOfKey cats k := by
  induction cats generalizing m with
  | nil => simp [buildMap, flatOfKey]
  | cons c rest ih =>
    show merchantsOfKey (buildMap (insertCat m c) rest) k = _
    rw [ih, merchantsOfKey_insertCat]
    by_cases hc : keyOfCat c = k <;> simp [flatOfKey, hc]

theorem keysOfMap_push (m : List MapEntry) (k : List Nat) (ms : List Merchant) :
    keysOfMap (pushMerchants m k ms) = keysOfMap m := by
  induction m with
  | nil => rfl
  | cons e rest ih =>
    by_cases he : e.key = k <;> simp [pushMerchants, keysOfMap, he] <;>
      simpa [keysOfMap] using ih

theorem hasKey_iff_mem_keys (m : List MapEntry) (k : List Nat) :
    hasKey m k = true ↔ k ∈ keysOfMap m := by
  induction m with
  | nil => simp [hasKey, keysOfMap]
  | cons e rest ih =>
    by_cases he : e.key = k <;> simp [hasKey, keysOfMap, he, ih] <;> tauto

theorem keysOfMap_insertCat (m : List MapEntry) (c : Category) :
    keysOfMap (insertCat m c) =
      if hasKey m (keyOfCat c) then keysOfMap m else keysOfMap m ++ [keyOfCat c] := by
  unfold insertCat
  by_cases h : hasKey m (keyOfCat c)
  · simp [h, keysOfMap_push]
  · simp only [Bool.not_eq_true] at h
    simp [h, keysOfMap]

/-- Folding categories in never duplicates a map key. -/
theorem nodup_keys_buildMap (cats : List Category) (m : List MapEntry)
    (h : (keysOfMap m).Nodup) : (keysOfMap (buildMap m cats)).Nodup := by
  induction cats generalizing m with
  | nil => exact h
  | cons c rest ih =>
    refine ih (insertCat m c) ?_
    rw [keysOfMap_insertCat]
    by_cases hc : hasKey m (keyOfCat c)
    · simpa [hc]
    · simp only [hc, Bool.false_eq_true, if_false, reduceIte]
      have hk : keyOfCat c ∉ keysOfMap m := fun hm =>
        hc ((hasKey_iff_mem_keys m (keyOfCat c)).mpr hm)
      simpa [List.nodup_append] using ⟨h, hk⟩

/-- Every entry's stored key is the normalization of its stored name. -/
def entryCoherent (e : MapEntry) : Prop := e.key = jsTrim (jsToLowerCase e.name)

theorem coherent_push (m : List MapEntry) (k : List Nat) (ms : List Merchant)
    (h : ∀ e ∈ m, entryCoherent e) : ∀ e ∈ pushMerchants m k ms, entryCoherent e := by
  induction m with
  | nil => simpa [pushMerchants] using h
  | cons f rest ih =>
    by_cases hf : f.key = k
    · intro e he
      simp only [pushMerchants, hf, if_true, reduceIte, List.mem_cons] at he
      rcases he with rfl | he
      · have hcf := h f (by simp)
        simpa [entryCoherent, ← hf] using hcf
      · exact h e (by simp [he])
    · intro e he
      simp only [pushMerchants, hf, if_false, reduceIte, List.mem_cons] at he
      rcases he with rfl | he
      · exact h e (by simp)
      · exact ih (fun e' he' => h e' (by simp [he'])) e he

theorem coherent_buildMap (cats : List Category) (m : List MapEntry)
    (h : ∀ e ∈ m, entryCoherent e) : ∀ e ∈ buildMap m cats, entryCoherent e := by
  induction cats generalizing m with
  | nil => exact h
  | cons c rest ih =>
    refine ih (insertCat m c) ?_
    unfold insertCat
    by_cases hc : hasKey m (keyOfCat c)
    · simpa [hc] using coherent_push m (keyOfCat c) c.merchants h
    · simp only [Bool.not_eq_true] at hc
      intro e he
      simp only [hc, Bool.false_eq_true, if_false, reduceIte, List.mem_append,
        List.mem_singleton] at he
      rcases he with he | rfl
      · exact h e he
      · rfl

end MergerLemmas

/-! ### Merger lemmas: dedup counting and the output phase -/

section DedupLemmas

/-- The normalized URL under which a merchant takes part in dedup, or
`none` when the merchant is skipped (blank URL or blank normalization). -/
def validUrl (m : Merchant) : Option (List Nat) :=
  if jsTrim m.programurl = [] then none
  else if jsTrim (normalizeUrl m.programurl) = [] then none
  else some (normalizeUrl m.programurl)

/-- Normalized URLs of the merchants that take part in dedup, in order. -/
def validUrls (ms : List Merchant) : List (List Nat) := ms.filterMap validUrl

theorem validUrls_append (x y : List Merchant) :
    validUrls (x ++ y) = validUrls x ++ validUrls y := by
  simp [validUrls, List.filterMap_append]

/-- The dedup walk keeps exactly one merchant per distinct normalized URL
not already seen. -/
theorem dedupGo_length (ms : List Merchant) (seen : List (List Nat)) :
    (dedupGo seen ms).length =
      ((validUrls ms).toFinset \ seen.toFinset).card := by
  induction ms generalizing seen with
  | nil => simp [dedupGo, validUrls]
  | cons m rest ih =>
    by_cases h1 : jsTrim m.programurl = []
    · rw [show dedupGo seen (m :: rest) = dedupGo seen rest by simp [dedupGo, h1]]
      rw [show validUrls (m :: rest) = validUrls rest by simp [validUrls, validUrl, h1]]
      exact ih seen
    · by_cases h2 : jsTrim (normalizeUrl m.programurl) = []
      · rw [show dedupGo seen (m :: rest) = dedupGo seen rest by simp [dedupGo, h1, h2]]
        rw [show validUrls (m :: rest) = validUrls rest by simp [validUrls, validUrl, h1, h2]]
        exact ih seen
      · have hv : validUrls (m :: rest) =
            normalizeUrl m.programurl :: validUrls rest := by
          simp [validUrls, validUrl, h1, h2]
        by_cases h3 : normalizeUrl m.programurl ∈ seen
        · rw [show dedupGo seen (m :: rest) = dedupGo seen rest by
            simp [dedupGo, h1, h2, h3]]
          rw [hv, ih seen]
          congr 1
          rw [List.toFinset_cons,
            Finset.insert_sdiff_of_mem _ (List.mem_toFinset.mpr h3)]
        · rw [show dedupGo seen (m :: rest) =
              m :: dedupGo (normalizeUrl m.programurl :: seen) rest by
            simp [dedupGo, h1, h2, h3]]
          rw [List.length_cons, ih (normalizeUrl m.programurl :: seen), hv]
          rw [List.toFinset_cons, List.toFinset_cons]
          rw [Finset.sdiff_insert]
          rw [Finset.insert_sdiff_of_not_mem _ (by simpa using h3)]
          set X := (validUrls rest).toFinset \ seen.toFinset with hX
          by_cases hm : normalizeUrl m.programurl ∈ X
          · rw [Finset.card_erase_of_mem hm]
            have : 1 ≤ X.card := Finset.card_pos.mpr ⟨_, hm⟩
            have := Finset.card_insert_of_mem hm
            omega
          · have h4 : X.erase (normalizeUrl m.programurl) = X :=
              Finset.erase_eq_of_not_mem hm
            have h5 : (insert (normalizeUrl m.programurl) X).card = X.card + 1 :=
              Finset.card_insert_of_not_mem hm
            rw [h4, h5]

/-- Dedup output size is the number of distinct valid normalized URLs —
in particular it is invariant under reordering the merchant list. -/
theorem dedupMerchants_length (ms : List Merchant) :
    (dedupMerchants ms).length = (validUrls ms).toFinset.card := by
  rw [dedupMerchants, dedupGo_length]
  simp

end DedupLemmas

section SortLemmas

theorem insertSorted_perm (c : Category) (l : List Category) :
    (insertSorted c l).Perm (c :: l) := by
  induction l with
  | nil => exact List.Perm.refl _
  | cons d rest ih =>
    unfold insertSorted
    by_cases h : c.id ≤ d.id
    · simp [h]
    · simp only [h, if_false, reduceIte]
      exact (ih.cons d).trans (List.Perm.swap c d rest)

theorem sortByCatId_perm (l : List Category) : (sortByCatId l).Perm l := by
  induction l with
  | nil => exact List.Perm.refl _
  | cons c rest ih =>
    show (insertSorted c (sortByCatId rest)).Perm (c :: rest)
    exact (insertSorted_perm c (sortByCatId rest)).trans (ih.cons c)

end SortLemmas

section CountLemmas

/-- Total number of merchants listed under key `k` in a category list. -/
def sumLenOfKey : List Category → List Nat → Nat
  | [], _ => 0
  | c :: rest, k =>
    (if keyOfCat c = k then c.merchants.length else 0) + sumLenOfKey rest k

/-- Number of merchants a catalog holds under category-name key `k`. -/
def keyCount (d : AffiliateData) (k : List Nat) : Nat := sumLenOfKey d.categories k

/-- Category-name keys present in a catalog. -/
def outKeys (d : AffiliateData) : Finset (List Nat) :=
  (d.categories.map keyOfCat).toFinset

theorem sumLenOfKey_eq_sum_map (cats : List Category) (k : List Nat) :
    sumLenOfKey cats k =
      (cats.map (fun c => if keyOfCat c = k then c.merchants.length else 0)).sum := by
  induction cats with
  | nil => rfl
  | cons c rest ih => simp [sumLenOfKey, ih]

theorem sumLenOfKey_perm (l1 l2 : List Category) (h : l1.Perm l2) (k : List Nat) :
    sumLenOfKey l1 k = sumLenOfKey l2 k := by
  rw [sumLenOfKey_eq_sum_map, sumLenOfKey_eq_sum_map]
  exact (h.map _).sum_eq

theorem sumLenOfKey_filter_pos (cats : List Category) (k : List Nat) :
    sumLenOfKey (cats.filter (fun c => 0 < c.merchants.length)) k =
      sumLenOfKey cats k := by
  induction cats with
  | nil => rfl
  | cons c rest ih =>
    by_cases h : 0 < c.merchants.length
    · simp [List.filter_cons, h, sumLenOfKey, ih]
    · have h0 : c.merchants.length = 0 := by omega
      simp [List.filter_cons, h, sumLenOfKey, ih, h0]

theorem keyOfCat_dedupEntry (e : MapEntry) (h : entryCoherent e) :
    keyOfCat (dedupEntry e) = e.key := by
  simp only [keyOfCat, dedupEntry, entryCoherent] at h ⊢
  exact h.symm

theorem sumLenOfKey_map_dedup_absent (m : List MapEntry) (k : List Nat)
    (hco : ∀ e ∈ m, entryCoherent e) (h : hasKey m k = false) :
    sumLenOfKey (m.map dedupEntry) k = 0 := by
  induction m with
  | nil => rfl
  | cons e rest ih =>
    simp only [hasKey] at h
    by_cases he : e.key = k
    · simp [he] at h
    · simp only [he, if_false, reduceIte] at h
      have hkey := keyOfCat_dedupEntry e (hco e (by simp))
      simp [sumLenOfKey, hkey, he,
        ih (fun e' he' => hco e' (by simp [he'])) h]

/-- With unique, coherent keys, the post-dedup merchant total under key `k`
is the number of distinct valid normalized URLs stored under `k`. -/
theorem sumLenOfKey_map_dedup (m : List MapEntry) (k : List Nat)
    (hco : ∀ e ∈ m, entryCoherent e) (hnd : (keysOfMap m).Nodup) :
    sumLenOfKey (m.map dedupEntry) k =
      (validUrls (merchantsOfKey m k)).toFinset.card := by
  induction m with
  | nil => simp [sumLenOfKey, merchantsOfKey, findEntry, validUrls]
  | cons e rest ih =>
    have hkey := keyOfCat_dedupEntry e (hco e (by simp))
    have hco' : ∀ e' ∈ rest, entryCoherent e' := fun e' he' => hco e' (by simp [he'])
    simp only [keysOfMap, List.map_cons, List.nodup_cons] at hnd
    by_cases he : e.key = k
    · have hrest : hasKey rest k = false := by
        cases hh : hasKey rest k
        · rfl
        · have hmem : k ∈ keysOfMap rest := (hasKey_iff_mem_keys rest k).mp hh
          rw [keysOfMap] at hmem
          exact absurd (he ▸ hmem) hnd.1
      rw [show merchantsOfKey (e :: rest) k = e.merchants by
        simp [merchantsOfKey, findEntry, he]]
      simp only [List.map_cons, sumLenOfKey, hkey, he, if_true, reduceIte]
      rw [sumLenOfKey_map_dedup_absent rest k hco' hrest, ← dedupMerchants_length]
      simp [dedupEntry]
    · rw [show merchantsOfKey (e :: rest) k = merchantsOfKey rest k by
        simp [merchantsOfKey, findEntry, he]]
      simp only [List.map_cons, sumLenOfKey, hkey, he, if_false, reduceIte]
      rw [ih hco' hnd.2]
      omega

end CountLemmas

section MergeCountTheorems

theorem merchantsOfKey_mergedMap (a b : AffiliateData) (k : List Nat) :
    merchantsOfKey (mergedMap (some a) (some b)) k =
      flatOfKey a.categories k ++ flatOfKey b.categories k := by
  show merchantsOfKey (buildMap (buildMap [] (catsOf (some a))) (catsOf (some b))) k = _
  rw [merchantsOfKey_buildMap, merchantsOfKey_buildMap]
  simp [merchantsOfKey, findEntry, catsOf]

theorem coherent_mergedMap (a b : AffiliateData) :
    ∀ e ∈ mergedMap (some a) (some b), entryCoherent e :=
  coherent_buildMap (catsOf (some b)) _
    (coherent_buildMap (catsOf (some a)) []
      (fun e he => absurd he (List.not_mem_nil e)))

theorem nodup_keys_mergedMap (a b : AffiliateData) :
    (keysOfMap (mergedMap (some a) (some b))).Nodup :=
  nodup_keys_buildMap _ _ (nodup_keys_buildMap _ [] (by simp [keysOfMap]))

/-- The number of merchants the merged output holds under key `k` is the
number of distinct valid normalized URLs among the two inputs' merchants
under that key. -/
theorem keyCount_mergeAffiliateData (a b : AffiliateData) (now : Nat) (k : List Nat) :
    keyCount (mergeAffiliateData (some a) (some b) now) k =
      (validUrls (flatOfKey a.categories k ++ flatOfKey b.categories k)).toFinset.card := by
  show sumLenOfKey (sortByCatId (((mergedMap (some a) (some b)).map dedupEntry).filter
      (fun c => 0 < c.merchants.length))) k = _
  rw [sumLenOfKey_perm _ _ (sortByCatId_perm _) k, sumLenOfKey_filter_pos,
    sumLenOfKey_map_dedup _ _ (coherent_mergedMap a b) (nodup_keys_mergedMap a b),
    merchantsOfKey_mergedMap]

theorem mem_keys_iff_pos (cats : List Category) (k : List Nat)
    (hpos : ∀ c ∈ cats, 0 < c.merchants.length) :
    k ∈ (cats.map keyOfCat).toFinset ↔ 0 < sumLenOfKey cats k := by
  induction cats with
  | nil => simp [sumLenOfKey]
  | cons c rest ih =>
    have hc := hpos c (by simp)
    have ih' := ih (fun c' h' => hpos c' (by simp [h']))
    by_cases he : keyOfCat c = k
    · simp [sumLenOfKey, he, hc]
    · simp only [List.map_cons, List.toFinset_cons, Finset.mem_insert, sumLenOfKey,
        he, if_false, reduceIte, Nat.zero_add]
      rw [← ih']
      constructor
      · rintro (rfl | hm)
        · exact absurd rfl he
        · exact hm
      · exact Or.inr

theorem mem_outKeys_merge (a b : AffiliateData) (now : Nat) (k : List Nat) :
    k ∈ outKeys (mergeAffiliateData (some a) (some b) now) ↔
      0 < keyCount (mergeAffiliateData (some a) (some b) now) k := by
  apply mem_keys_iff_pos
  intro c hcmem
  have : c ∈ ((mergedMap (some a) (some b)).map dedupEntry).filter
      (fun c => 0 < c.merchants.length) :=
    ((sortByCatId_perm _).mem_iff).mp hcmem
  have := List.of_mem_filter this
  simpa using this

/-- C6: swapping the two catalogs leaves the set of category-name keys of
the merged output unchanged and, for every key, yields the same number of
merchants after URL deduplication (only which record represents a
duplicated URL can differ). -/
theorem merge_comm_counts (a b : AffiliateData) (n1 n2 : Nat) :
    outKeys (mergeAffiliateData (some a) (some b) n1) =
      outKeys (mergeAffiliateData (some b) (some a) n2) ∧
    ∀ k, keyCount (mergeAffiliateData (some a) (some b) n1) k =
      keyCount (mergeAffiliateData (some b) (some a) n2) k := by
  have hcnt : ∀ k, keyCount (mergeAffiliateData (some a) (some b) n1) k =
      keyCount (mergeAffiliateData (some b) (some a) n2) k := by
    intro k
    rw [keyCount_mergeAffiliateData, keyCount_mergeAffiliateData]
    have : (validUrls (flatOfKey a.categories k ++ flatOfKey b.categories k)).toFinset =
        (validUrls (flatOfKey b.categories k ++ flatOfKey a.categories k)).toFinset := by
      rw [validUrls_append, validUrls_append, List.toFinset_append, List.toFinset_append,
        Finset.union_comm]
    rw [this]
  refine ⟨?_, hcnt⟩
  ext k
  rw [mem_outKeys_merge, mem_outKeys_merge, hcnt k]

end MergeCountTheorems

section FrameTheorems

theorem flatOfKey_of_not_mem (cats : List Category) (k : List Nat)
    (h : k ∉ cats.map keyOfCat) : flatOfKey cats k = [] := by
  induction cats with
  | nil => rfl
  | cons c rest ih =>
    simp only [List.map_cons, List.mem_cons] at h
    push_neg at h
    simp [flatOfKey, Ne.symm h.1, ih h.2]

theorem flatOfKey_self (cats : List Category) (c : Category)
    (hnd : (cats.map keyOfCat).Nodup) (hc : c ∈ cats) :
    flatOfKey cats (keyOfCat c) = c.merchants := by
  induction cats with
  | nil => cases hc
  | cons d rest ih =>
    simp only [List.map_cons, List.nodup_cons] at hnd
    rcases List.mem_cons.mp hc with rfl | hc'
    · simp [flatOfKey, flatOfKey_of_not_mem rest _ hnd.1]
    · have hne : keyOfCat d ≠ keyOfCat c := by
        intro he
        exact hnd.1 (by rw [he]; exact List.mem_map_of_mem keyOfCat hc')
      simp [flatOfKey, hne, ih hnd.2 hc']

/-- When no category's key is already owned and every category's map entry
holds exactly that category's own merchants, the post-call category list
is unchanged. -/
theorem postCats_eq_self (fm : List MapEntry) (cats : List Category)
    (seen0 : List (List Nat))
    (h1 : ∀ c ∈ cats, keyOfCat c ∉ seen0)
    (h2 : ∀ c ∈ cats, merchantsOfKey fm (keyOfCat c) = c.merchants ∨
      findEntry fm (keyOfCat c) = none)
    (h3 : (cats.map keyOfCat).Nodup) :
    postCats fm seen0 cats = cats := by
  induction cats generalizing seen0 with
  | nil => rfl
  | cons c rest ih =>
    simp only [List.map_cons, List.nodup_cons] at h3
    have hc0 : keyOfCat c ∉ seen0 := h1 c (by simp)
    show (if keyOfCat c ∈ seen0 then c else _) :: postCats fm (keyOfCat c :: seen0) rest
        = c :: rest
    rw [if_neg hc0]
    have hhead : ({ c with merchants :=
        ((findEntry fm (keyOfCat c)).map (fun e => e.merchants)).getD c.merchants }
          : Category) = c := by
      rcases h2 c (by simp) with h | h
      · cases hfe : findEntry fm (keyOfCat c) with
        | none => simp
        | some e =>
          have hme : e.merchants = c.merchants := by
            rw [merchantsOfKey, hfe] at h
            simpa using h
          simp [hme]
      · simp [h]
    rw [hhead]
    have hrest : postCats fm (keyOfCat c :: seen0) rest = rest := by
      apply ih
      · intro c' hc'
        simp only [List.mem_cons]
        push_neg
        constructor
        · intro he
          exact h3.1 (by rw [← he]; exact List.mem_map_of_mem keyOfCat hc')
        · exact h1 c' (by simp [hc'])
      · exact fun c' hc' => h2 c' (by simp [hc'])
      · exact h3.2
    rw [hrest]

/-- C2 (amended): when no two categories among the two inputs share a
lowercased-trimmed name key, `mergeAffiliateData` leaves both inputs
unchanged, and a second call on the (unchanged) inputs with the same
clock returns the identical result. Without that proviso the first
same-key category's merchants array is extended in place
(`mergeAffiliateData_mutates_input`). -/
theorem mergeAffiliateData_pure_of_distinct_keys (a b : AffiliateData) (now : Nat)
    (h : ((a.categories ++ b.categories).map keyOfCat).Nodup) :
    (mergeRun (some a) (some b) now).postA = some a ∧
    (mergeRun (some a) (some b) now).postB = some b ∧
    mergeRun (mergeRun (some a) (some b) now).postA
      (mergeRun (some a) (some b) now).postB now = mergeRun (some a) (some b) now := by
  rw [List.map_append, List.nodup_append] at h
  obtain ⟨hna, hnb, hdisj⟩ := h
  have hkey : ∀ k, merchantsOfKey (mergedMap (some a) (some b)) k =
      flatOfKey a.categories k ++ flatOfKey b.categories k :=
    merchantsOfKey_mergedMap a b
  have hA : ∀ c ∈ a.categories,
      merchantsOfKey (mergedMap (some a) (some b)) (keyOfCat c) = c.merchants := by
    intro c hc
    rw [hkey, flatOfKey_self a.categories c hna hc,
      flatOfKey_of_not_mem b.categories _
        (fun hmem => hdisj (List.mem_map_of_mem keyOfCat hc) hmem),
      List.append_nil]
  have hB : ∀ c ∈ b.categories,
      merchantsOfKey (mergedMap (some a) (some b)) (keyOfCat c) = c.merchants := by
    intro c hc
    rw [hkey,
      flatOfKey_of_not_mem a.categories _
        (fun hmem => hdisj hmem (List.mem_map_of_mem keyOfCat hc)),
      flatOfKey_self b.categories c hnb hc,
      List.nil_append]
  have hcatsA : postCats (mergedMap (some a) (some b)) [] a.categories = a.categories :=
    postCats_eq_self _ _ _ (by simp) (fun c hc => Or.inl (hA c hc)) hna
  have hcatsB : postCats (mergedMap (some a) (some b))
      ((catsOf (some a)).map keyOfCat) b.categories = b.categories :=
    postCats_eq_self _ _ _
      (fun c hc hmem => hdisj (by simpa [catsOf] using hmem)
        (List.mem_map_of_mem keyOfCat hc))
      (fun c hc => Or.inl (hB c hc)) hnb
  have hpostA : (mergeRun (some a) (some b) now).postA = some a := by
    simp only [mergeRun, mergePost, Option.map_some']
    rw [hcatsA]
  have hpostB : (mergeRun (some a) (some b) now).postB = some b := by
    simp only [mergeRun, mergePost, Option.map_some']
    rw [hcatsB]
  refine ⟨hpostA, hpostB, ?_⟩
  rw [hpostA, hpostB]

/-- Second catalog with a key disjoint from `catalogA`, used to witness
the amended purity theorem. -/
def catalogSport : AffiliateData :=
  { categories := [{ id := 7, name := js "Sport", merchants := [hmB] }]
    lastUpdated := 2000 }

/-- Witness for the amended C2 theorem at concrete distinct-key catalogs. -/
theorem mergeAffiliateData_pure_of_distinct_keys_witness :
    ((catalogA.categories ++ catalogSport.categories).map keyOfCat).Nodup ∧
    ((mergeRun (some catalogA) (some catalogSport) 3000).postA = some catalogA ∧
     (mergeRun (some catalogA) (some catalogSport) 3000).postB = some catalogSport ∧
     mergeRun (mergeRun (some catalogA) (some catalogSport) 3000).postA
       (mergeRun (some catalogA) (some catalogSport) 3000).postB 3000 =
         mergeRun (some catalogA) (some catalogSport) 3000) :=
  ⟨by decide, mergeAffiliateData_pure_of_distinct_keys catalogA catalogSport 3000 (by decide)⟩

end FrameTheorems

/-! ## Retry utility (src fetch-utils: `fetchWithRetry`) -/

/-- A JavaScript thrown value: either an `Error` instance (identified by
its message) or any other thrown value (opaque payload). -/
inductive JsThrow where
  | errObj : List Nat → JsThrow
  | nonError : Nat → JsThrow
deriving DecidableEq, Repr

/-- Model of `error instanceof Error ? error : new Error('Unknown error')`
(fetch-utils, catch block of `fetchWithRetry`). -/
def wrapThrown : JsThrow → JsThrow
  | .errObj e => .errObj e
  | .nonError _ => .errObj (js "Unknown error")

/-- Observable outcome of one `fetchWithRetry` call: the settled result,
how many times `fetchFn` was invoked, and the list of back-off sleeps
performed (in ms, in order). -/
structure RetryTrace (V : Type) where
  result : Except JsThrow V
  calls : Nat
  sleeps : List Nat
deriving Repr

/-- The `for (attempt = 1; attempt <= maxRetries; attempt++)` loop of
`fetchWithRetry`, with `remaining = maxRetries + 1 - attempt` iterations
left. On exhaustion it throws `lastError || new Error('Unknown error')`;
after a failed attempt that is not the last it sleeps
`initialDelay * 2^(attempt-1)`. `fetchFn` is indexed by attempt number so
that each invocation's outcome can differ. -/
def fetchWithRetryGo {V : Type} (fetchFn : Nat → Except JsThrow V)
    (maxRetries initialDelay : Nat) :
    Nat → Nat → Option JsThrow → RetryTrace V
  | 0, _, lastError =>
    { result := .error (lastError.getD (.errObj (js "Unknown error")))
      calls := 0, sleeps := [] }
  | remaining + 1, attempt, _ =>
    match fetchFn attempt with
    | .ok v => { result := .ok v, calls := 1, sleeps := [] }
    | .error e =>
      let le := wrapThrown e
      let sl := if attempt < maxRetries then [initialDelay * 2 ^ (attempt - 1)] else []
      let r := fetchWithRetryGo fetchFn maxRetries initialDelay remaining (attempt + 1) (some le)
      { result := r.result, calls := r.calls + 1, sleeps := sl ++ r.sleeps }

/-- Embedding of `fetchWithRetry(fetchFn, maxRetries, initialDelay, logPrefix)`
(the log prefix only affects console output and is omitted). -/
def fetchWithRetry {V : Type} (fetchFn : Nat → Except JsThrow V)
    (maxRetries initialDelay : Nat) : RetryTrace V :=
  fetchWithRetryGo fetchFn maxRetries initialDelay maxRetries 1 none

/-- The back-off sleeps of `count` consecutive failed attempts starting at
attempt number `attempt`: `initialDelay * 2^(attempt-1)` each. -/
def backoffDelays (initialDelay : Nat) : Nat → Nat → List Nat
  | _, 0 => []
  | attempt, count + 1 =>
    initialDelay * 2 ^ (attempt - 1) :: backoffDelays initialDelay (attempt + 1) count

theorem fetchWithRetryGo_zero {V : Type} (fetchFn : Nat → Except JsThrow V)
    (maxRetries initialDelay attempt : Nat) (le : Option JsThrow) :
    fetchWithRetryGo fetchFn maxRetries initialDelay 0 attempt le =
      { result := .error (le.getD (.errObj (js "Unknown error")))
        calls := 0, sleeps := [] } := rfl

theorem fetchWithRetryGo_succ {V : Type} (fetchFn : Nat → Except JsThrow V)
    (maxRetries initialDelay remaining attempt : Nat) (le : Option JsThrow) :
    fetchWithRetryGo fetchFn maxRetries initialDelay (remaining + 1) attempt le =
      match fetchFn attempt with
      | .ok v => { result := .ok v, calls := 1, sleeps := [] }
      | .error e =>
        let r := fetchWithRetryGo fetchFn maxRetries initialDelay remaining
          (attempt + 1) (some (wrapThrown e))
        { result := r.result, calls := r.calls + 1,
          sleeps := (if attempt < maxRetries then [initialDelay * 2 ^ (attempt - 1)]
            else []) ++ r.sleeps } := rfl

theorem fetchWithRetryGo_all_fail {V : Type} (fetchFn : Nat → Except JsThrow V)
    (maxRetries initialDelay : Nat) :
    ∀ remaining attempt le e, attempt + remaining = maxRetries + 1 → 1 ≤ remaining →
    (∀ k, attempt ≤ k → k ≤ maxRetries → ∃ e', fetchFn k = .error e') →
    fetchFn maxRetries = .error e →
    (fetchWithRetryGo fetchFn maxRetries initialDelay remaining attempt le).calls =
      remaining ∧
    (fetchWithRetryGo fetchFn maxRetries initialDelay remaining attempt le).sleeps =
      backoffDelays initialDelay attempt (remaining - 1) ∧
    (fetchWithRetryGo fetchFn maxRetries initialDelay remaining attempt le).result =
      .error (wrapThrown e) := by
  intro remaining
  induction remaining with
  | zero =>
    intro attempt le e h1 h2 _ _
    exact absurd h2 (by omega)
  | succ n ih =>
    intro attempt le e h1 h2 hall hlast
    obtain ⟨e', he'⟩ := hall attempt (le_refl _) (by omega)
    cases n with
    | zero =>
      have ha : attempt = maxRetries := by omega
      subst ha
      have hee : e' = e := by
        have := he'.symm.trans hlast
        exact (Except.error.injEq _ _).mp this
      subst hee
      rw [fetchWithRetryGo_succ]
      simp [he', fetchWithRetryGo_zero, backoffDelays, Nat.lt_irrefl]
    | succ m =>
      have hlt : attempt < maxRetries := by omega
      have ih' := ih (attempt + 1) (some (wrapThrown e')) e (by omega) (by omega)
        (fun k hk1 hk2 => hall k (by omega) hk2) hlast
      rw [fetchWithRetryGo_succ]
      simp only [he']
      refine ⟨by simp [ih'.1], ?_, by simp [ih'.2.2]⟩
      simp only [hlt, if_true, reduceIte]
      rw [show (m + 1 + 1 : Nat) - 1 = m + 1 by omega, backoffDelays]
      simp [ih'.2.1]

theorem fetchWithRetryGo_success {V : Type} (fetchFn : Nat → Except JsThrow V)
    (maxRetries initialDelay : Nat) :
    ∀ remaining attempt le k v, attempt ≤ k → k < attempt + remaining →
    attempt + remaining ≤ maxRetries + 1 →
    fetchFn k = .ok v →
    (∀ j, attempt ≤ j → j < k → ∃ e', fetchFn j = .error e') →
    (fetchWithRetryGo fetchFn maxRetries initialDelay remaining attempt le).result = .ok v ∧
    (fetchWithRetryGo fetchFn maxRetries initialDelay remaining attempt le).calls =
      k + 1 - attempt ∧
    (fetchWithRetryGo fetchFn maxRetries initialDelay remaining attempt le).sleeps =
      backoffDelays initialDelay attempt (k - attempt) := by
  intro remaining
  induction remaining with
  | zero =>
    intro attempt le k v h1 h2 _ _ _
    exact absurd h2 (by omega)
  | succ n ih =>
    intro attempt le k v h1 h2 h3 hok hfails
    by_cases hk : k = attempt
    · subst hk
      rw [show k - k = 0 by omega]
      rw [fetchWithRetryGo_succ]
      simp [hok, backoffDelays]
    · have hlt : attempt < k := lt_of_le_of_ne h1 fun he => hk he.symm
      obtain ⟨e', he'⟩ := hfails attempt (le_refl _) hlt
      have hltmr : attempt < maxRetries := by omega
      have ih' := ih (attempt + 1) (some (wrapThrown e')) k v (by omega) (by omega)
        (by omega) hok (fun j hj1 hj2 => hfails j (by omega) hj2)
      rw [fetchWithRetryGo_succ]
      simp only [he']
      refine ⟨by simp [ih'.1], by simp [ih'.2.1]; omega, ?_⟩
      simp only [hltmr, if_true, reduceIte]
      rw [show k - attempt = (k - (attempt + 1)) + 1 by omega, backoffDelays]
      simp [ih'.2.1, ih'.2.2]

/-- C8 (amended): with `maxRetries ≥ 1`: if every attempt fails,
`fetchWithRetry` invokes `fetchFn` exactly `maxRetries` times, sleeps
`initialDelay * 2^(attempt-1)` after every failed attempt except the last,
and throws the final attempt's error passed through the code's
`instanceof Error` guard (`wrapThrown`: an `Error` propagates verbatim, any
other thrown value is replaced by `new Error('Unknown error')`); if an
attempt succeeds after only failures, its value is returned, no further
attempts are made, and only the preceding failures slept. -/
theorem fetchWithRetry_retries_and_propagates {V : Type}
    (fetchFn : Nat → Except JsThrow V) (maxRetries initialDelay : Nat)
    (hmr : 1 ≤ maxRetries) :
    ((∀ k, 1 ≤ k → k ≤ maxRetries → ∃ e', fetchFn k = .error e') →
      ∀ e, fetchFn maxRetries = .error e →
        (fetchWithRetry fetchFn maxRetries initialDelay).calls = maxRetries ∧
        (fetchWithRetry fetchFn maxRetries initialDelay).sleeps =
          backoffDelays initialDelay 1 (maxRetries - 1) ∧
        (fetchWithRetry fetchFn maxRetries initialDelay).result =
          .error (wrapThrown e)) ∧
    (∀ k v, 1 ≤ k → k ≤ maxRetries → fetchFn k = .ok v →
      (∀ j, 1 ≤ j → j < k → ∃ e', fetchFn j = .error e') →
        (fetchWithRetry fetchFn maxRetries initialDelay).result = .ok v ∧
        (fetchWithRetry fetchFn maxRetries initialDelay).calls = k ∧
        (fetchWithRetry fetchFn maxRetries initialDelay).sleeps =
          backoffDelays initialDelay 1 (k - 1)) := by
  constructor
  · intro hall e hlast
    have h := fetchWithRetryGo_all_fail fetchFn maxRetries initialDelay
      maxRetries 1 none e (by omega) hmr hall hlast
    exact ⟨h.1, h.2.1, h.2.2⟩
  · intro k v hk1 hk2 hok hfails
    have h := fetchWithRetryGo_success fetchFn maxRetries initialDelay
      maxRetries 1 none k v hk1 (by omega) (by omega) hok hfails
    refine ⟨h.1, ?_, h.2.2⟩
    have hc : (fetchWithRetry fetchFn maxRetries initialDelay).calls = k + 1 - 1 := h.2.1
    omega

/-- A fetch function that always rejects with an `Error` of message
"boom"; used to witness the retry theorem. -/
def failFn : Nat → Except JsThrow Nat := fun _ => .error (.errObj (js "boom"))

/-- Witness: three attempts against an always-failing fetch make exactly
3 calls, sleep 100 ms then 200 ms, and propagate the Error verbatim. -/
theorem fetchWithRetry_retries_and_propagates_witness :
    (fetchWithRetry failFn 3 100).calls = 3 ∧
    (fetchWithRetry failFn 3 100).sleeps = [100, 200] ∧
    (fetchWithRetry failFn 3 100).result = .error (.errObj (js "boom")) := by
  have h := (fetchWithRetry_retries_and_propagates failFn 3 100 (by decide)).1
    (fun k _ _ => ⟨.errObj (js "boom"), rfl⟩) (.errObj (js "boom")) rfl
  refine ⟨h.1, ?_, ?_⟩
  · rw [h.2.1]; rfl
  · rw [h.2.2]; rfl

/-- C8 counterexample: a JS promise can reject with a value that is not an
`Error` instance; the catch block's `error instanceof Error` guard then
substitutes `new Error('Unknown error')`, so what `fetchWithRetry` throws
after exhaustion is *not* the error raised by the final attempt. -/
theorem fetchWithRetry_wraps_nonError :
    (fetchWithRetry (fun _ => (.error (.nonError 42) : Except JsThrow Nat)) 1 5).result =
      .error (.errObj (js "Unknown error")) ∧
    JsThrow.errObj (js "Unknown error") ≠ JsThrow.nonError 42 :=
  ⟨rfl, by decide⟩

/-! ## Refresh scheduler (src/app/lib/cron-scheduler.server.ts) -/

/-- The constant `MAX_CONSECUTIVE_RETRIES` (cron-scheduler.server.ts:16). -/
def MAX_CONSECUTIVE_RETRIES : Nat := 5

/-- The fixed retry delay: 3 hours in milliseconds (line 84). -/
def RETRY_DELAY_MS : Nat := 3 * 60 * 60 * 1000

/-- Scheduler module state: the `consecutiveFailures` counter and the
single `retryTimeout` slot. A pending timer is `some (id, delayMs)`;
`nextTimerId` numbers the timers so that a newly registered timer is
distinguishable from any earlier one. -/
structure SchedState where
  consecutiveFailures : Nat
  retryTimer : Option (Nat × Nat)
  nextTimerId : Nat
deriving DecidableEq, Repr

/-- The `source` argument of `executeRefresh` ('cron' | 'retry' | 'manual'). -/
inductive RefreshSource
  | cron
  | retry
  | manual
deriving DecidableEq, Repr

/-- Model of `scheduleRetryIn3Hours` (lines 78-101): clear any existing timer and
register exactly one new 3-hour timeout. -/
def scheduleRetryIn3Hours (s : SchedState) : SchedState :=
  { consecutiveFailures := s.consecutiveFailures
    retryTimer := some (s.nextTimerId, RETRY_DELAY_MS)
    nextTimerId := s.nextTimerId + 1 }

/-- State transition of `executeRefresh` (lines 23-73). `succeeded` is the
outcome of awaiting the two `forceRefreshCache` calls. On success the
failure counter resets and any pending timer is cleared; on failure the
counter increments, a sub-cap count schedules one retry, and reaching the
cap schedules nothing and resets the counter. The `source` argument only
feeds log messages. -/
def executeRefresh (s : SchedState) (source : RefreshSource) (succeeded : Bool) :
    SchedState :=
  if succeeded then
    { consecutiveFailures := 0, retryTimer := none, nextTimerId := s.nextTimerId }
  else
    let s1 : SchedState := { s with consecutiveFailures := s.consecutiveFailures + 1 }
    if s1.consecutiveFailures < MAX_CONSECUTIVE_RETRIES then scheduleRetryIn3Hours s1
    else { s1 with consecutiveFailures := 0 }

/-- C9: (a) a failure whose resulting count stays below the cap of 5 leaves
exactly one pending retry timer, freshly registered with the 3-hour delay
(the single `retryTimeout` slot replaces any previous one); (b) the failure
that reaches the cap schedules no new timer and resets the counter to 0;
(c) every success resets the counter and clears any pending timer; and the
trigger source never influences the transition. -/
theorem executeRefresh_retry_state (s : SchedState) (src : RefreshSource) :
    ((executeRefresh s src true).consecutiveFailures = 0 ∧
      (executeRefresh s src true).retryTimer = none) ∧
    (s.consecutiveFailures + 1 < MAX_CONSECUTIVE_RETRIES →
      (executeRefresh s src false).consecutiveFailures = s.consecutiveFailures + 1 ∧
      (executeRefresh s src false).retryTimer = some (s.nextTimerId, RETRY_DELAY_MS)) ∧
    (MAX_CONSECUTIVE_RETRIES ≤ s.consecutiveFailures + 1 →
      (executeRefresh s src false).consecutiveFailures = 0 ∧
      (executeRefresh s src false).retryTimer = s.retryTimer) ∧
    (∀ src2 b, executeRefresh s src2 b = executeRefresh s src b) := by
  refine ⟨⟨rfl, rfl⟩, ?_, ?_, fun _ _ => rfl⟩
  · intro h
    simp [executeRefresh, scheduleRetryIn3Hours, h]
  · intro h
    have h2 : ¬(s.consecutiveFailures + 1 < MAX_CONSECUTIVE_RETRIES) := by omega
    simp [executeRefresh, h2]

/-! ## Cache manager concurrency: `getCachedOrFetch`
(src/app/lib/cache-manager.server.ts:101-156)

Cooperative (event-loop) interleaving model for one cache key and two
concurrent callers. Each caller executes atomic blocks separated by the
`await` suspension points of the source:

* `.start` — about to run the synchronous entry block: the in-flight check
  of lines 108-113 (`inFlightRequests.get(key)`), which either returns the
  pending promise (`.joined k`) or proceeds to `await getCached(key)`.
* `.afterCheck` — the `getCached` read resolves; the resumed block (lines
  117-155) runs synchronously: on a hit the cached value is returned, on a
  miss the fetch IIFE starts (calling `fetchFn` — counted in `cnt`) and
  `inFlightRequests.set(key, fetchPromise)` registers it (`.own k`).
* `resolve k` — fetch invocation `k` settles: the IIFE continues
  (`setCache` writes the value, the `finally` runs
  `inFlightRequests.delete(key)`, which removes whatever registration the
  key currently has), and every caller awaiting promise `k` resumes with
  its value.
-/

/-- Program counter of one `getCachedOrFetch` caller. -/
inductive CallerPc where
  | start
  | afterCheck
  | joined (k : Nat)
  | own (k : Nat)
  | done (v : Nat)
deriving DecidableEq, Repr

/-- Shared state for one key plus both callers' program counters.
`fval k` (a parameter of the step function) is the value produced by the
`k`-th invocation of `fetchFn`. -/
structure FetchConfig where
  p1 : CallerPc
  p2 : CallerPc
  inflight : Option Nat
  cache : Option Nat
  cnt : Nat
  pending : List Nat
deriving DecidableEq, Repr

/-- A scheduler event: caller 1 or caller 2 runs its next atomic block,
or fetch invocation `k` resolves. -/
inductive FetchAct where
  | c1
  | c2
  | resolve (k : Nat)
deriving DecidableEq, Repr

/-- One caller's next atomic block (no-op when the caller is awaiting a
promise or already settled). -/
def callerStep (cfg : FetchConfig) : CallerPc → CallerPc × FetchConfig
  | .start =>
    match cfg.inflight with
    | some k => (.joined k, cfg)
    | none => (.afterCheck, cfg)
  | .afterCheck =>
    match cfg.cache with
    | some v => (.done v, cfg)
    | none =>
      let k := cfg.cnt + 1
      (.own k,
        { cfg with cnt := k, inflight := some k, pending := cfg.pending ++ [k] })
  | pc => (pc, cfg)

/-- Wake a caller awaiting promise `k` with its value. -/
def resolveWaiter (k v : Nat) : CallerPc → CallerPc
  | .joined j => if j = k then .done v else .joined j
  | .own j => if j = k then .done v else .own j
  | pc => pc

/-- One scheduler step. -/
def fetchStep (fval : Nat → Nat) (cfg : FetchConfig) : FetchAct → FetchConfig
  | .c1 =>
    let s := callerStep cfg cfg.p1
    { s.2 with p1 := s.1 }
  | .c2 =>
    let s := callerStep cfg cfg.p2
    { s.2 with p2 := s.1 }
  | .resolve k =>
    if k ∈ cfg.pending then
      { p1 := resolveWaiter k (fval k) cfg.p1
        p2 := resolveWaiter k (fval k) cfg.p2
        inflight := none
        cache := some (fval k)
        cnt := cfg.cnt
        pending := cfg.pending.erase k }
    else cfg

/-- Run a schedule (disabled events are no-ops). -/
def fetchRun (fval : Nat → Nat) (cfg : FetchConfig) : List FetchAct → FetchConfig
  | [] => cfg
  | a :: rest => fetchRun fval (fetchStep fval cfg a) rest

/-- Both calls start on a key with no cached value and no fetch in flight. -/
def fetchInit : FetchConfig :=
  { p1 := .start, p2 := .start, inflight := none, cache := none
    cnt := 0, pending := [] }

def isSettled : CallerPc → Bool
  | .done _ => true
  | _ => false

/-- The scenario is complete: both calls settled, no fetch outstanding. -/
def fetchFinished (cfg : FetchConfig) : Bool :=
  isSettled cfg.p1 && isSettled cfg.p2 && cfg.pending.isEmpty

/-- C1 counterexample: the in-flight check (line 110) is the first
synchronous block of the call, while the promise is registered only after
the awaited cache read misses (line 155). If the second call starts while
the first is still awaiting `getCached` — e.g. both calls are issued on
the same tick — both pass the check, and `fetchFn` runs twice; the two
callers even settle with the results of different invocations. -/
theorem getCachedOrFetch_two_fetches_interleaving :
    (fetchRun (fun k => k) fetchInit
      [.c1, .c2, .c1, .c2, .resolve 1, .resolve 2]).cnt = 2 ∧
    fetchFinished (fetchRun (fun k => k) fetchInit
      [.c1, .c2, .c1, .c2, .resolve 1, .resolve 2]) = true ∧
    (fetchRun (fun k => k) fetchInit
      [.c1, .c2, .c1, .c2, .resolve 1, .resolve 2]).p1 = .done 1 ∧
    (fetchRun (fun k => k) fetchInit
      [.c1, .c2, .c1, .c2, .resolve 1, .resolve 2]).p2 = .done 2 :=
  ⟨by decide, by decide, by decide, by decide⟩

/-- The configuration after caller 1 runs its two blocks uninterrupted:
fetch 1 is registered as in flight, caller 2 has not started. -/
def registeredConfig : FetchConfig :=
  { p1 := .own 1, p2 := .start, inflight := some 1, cache := none
    cnt := 1, pending := [1] }

/-- Invariant from `registeredConfig`: at most the one registered fetch
ever runs, and both callers can only settle with its value. -/
def dedupInv (fval : Nat → Nat) (cfg : FetchConfig) : Prop :=
  cfg.cnt = 1 ∧
  ((cfg.pending = [1] ∧ cfg.inflight = some 1 ∧ cfg.cache = none ∧
      cfg.p1 = .own 1 ∧ (cfg.p2 = .start ∨ cfg.p2 = .joined 1)) ∨
   (cfg.pending = [] ∧ cfg.inflight = none ∧ cfg.cache = some (fval 1) ∧
      cfg.p1 = .done (fval 1) ∧
      (cfg.p2 = .start ∨ cfg.p2 = .afterCheck ∨ cfg.p2 = .done (fval 1))))

theorem dedupInv_step (fval : Nat → Nat) (cfg : FetchConfig) (a : FetchAct)
    (h : dedupInv fval cfg) : dedupInv fval (fetchStep fval cfg a) := by
  obtain ⟨hcnt, hph⟩ := h
  rcases hph with ⟨hp, hif, hca, h1, h2⟩ | ⟨hp, hif, hca, h1, h2⟩
  · cases a with
    | c1 => simp_all [fetchStep, callerStep, dedupInv]
    | c2 =>
      rcases h2 with h2 | h2 <;> simp_all [fetchStep, callerStep, dedupInv]
    | resolve k =>
      by_cases hk : k = 1
      · subst hk
        rcases h2 with h2 | h2 <;>
          simp_all [fetchStep, resolveWaiter, dedupInv]
      · simp_all [fetchStep, dedupInv, List.mem_singleton, hk]
  · cases a with
    | c1 => simp_all [fetchStep, callerStep, dedupInv]
    | c2 =>
      rcases h2 with h2 | h2 | h2 <;> simp_all [fetchStep, callerStep, dedupInv]
    | resolve k => simp_all [fetchStep, dedupInv]

theorem dedupInv_run (fval : Nat → Nat) (acts : List FetchAct) (cfg : FetchConfig)
    (h : dedupInv fval cfg) : dedupInv fval (fetchRun fval cfg acts) := by
  induction acts generalizing cfg with
  | nil => exact h
  | cons a rest ih => exact ih _ (dedupInv_step fval cfg a h)

/-- C1 (amended): `registeredConfig` is exactly the state reached when the
first call runs its two blocks back to back (`[.c1, .c1]`), and from any
state in which the first call has registered its fetch before the second
call starts, every complete schedule makes exactly one `fetchFn`
invocation and settles both callers with that single invocation's value.
(When the second call instead passes the in-flight check before the first
registers, two invocations occur: `getCachedOrFetch_two_fetches_interleaving`.) -/
theorem getCachedOrFetch_dedup_after_registration (fval : Nat → Nat)
    (acts : List FetchAct)
    (hdone : fetchFinished (fetchRun fval registeredConfig acts) = true) :
    fetchRun fval fetchInit [.c1, .c1] = registeredConfig ∧
    (fetchRun fval registeredConfig acts).cnt = 1 ∧
    (fetchRun fval registeredConfig acts).p1 = .done (fval 1) ∧
    (fetchRun fval registeredConfig acts).p2 = .done (fval 1) := by
  have hinv : dedupInv fval (fetchRun fval registeredConfig acts) :=
    dedupInv_run fval acts registeredConfig
      ⟨rfl, Or.inl ⟨rfl, rfl, rfl, rfl, Or.inl rfl⟩⟩
  obtain ⟨hcnt, hph⟩ := hinv
  rcases hph with ⟨hp, hif, hca, h1, h2⟩ | ⟨hp, hif, hca, h1, h2⟩
  · rw [fetchFinished, h1] at hdone
    simp [isSettled] at hdone
  · refine ⟨rfl, hcnt, h1, ?_⟩
    rcases h2 with h2 | h2 | h2
    · rw [fetchFinished, h2] at hdone
      simp [isSettled] at hdone
    · rw [fetchFinished, h2] at hdone
      simp [isSettled] at hdone
    · exact h2

/-- Witness: from `registeredConfig`, caller 2 joins the in-flight promise
and the single fetch resolves; both callers settle with fetch 1's value. -/
theorem getCachedOrFetch_dedup_after_registration_witness :
    fetchFinished (fetchRun (fun k => k) registeredConfig [.c2, .resolve 1]) = true ∧
    (fetchRun (fun k => k) fetchInit [.c1, .c1] = registeredConfig ∧
     (fetchRun (fun k => k) registeredConfig [.c2, .resolve 1]).cnt = 1 ∧
     (fetchRun (fun k => k) registeredConfig [.c2, .resolve 1]).p1 = .done 1 ∧
     (fetchRun (fun k => k) registeredConfig [.c2, .resolve 1]).p2 = .done 1) :=
  ⟨by decide,
   getCachedOrFetch_dedup_after_registration (fun k => k) [.c2, .resolve 1] (by decide)⟩

/-! ## Cache manager concurrency: `getCachedOrFetchStale`
(src/app/lib/cache-manager.server.ts:165-221)

Interleaving model for `n` concurrent `getCachedOrFetchStale` callers on
one key that holds a cache entry. Atomic blocks, split at the `await`
suspension points:

* `.start` — call issued; awaiting `getCachedIgnoreVersion` (line 174);
  its step resumes with the stored (possibly stale) value.
* `.haveStale` — awaiting `getCachedMetadata` (line 175); its step runs
  the resumed synchronous block atomically: compute
  `age = Date.now() - timestamp`; if `age > STALE_THRESHOLD`, call
  `refreshInBackground` — whose lock check and `refreshLocks.add(key)`
  (lines 203-209) are synchronous with no suspension in between, so the
  check-and-acquire is atomic; when the lock is free, acquiring it starts
  `fetchFn` (counted in `cnt`); either way the caller returns the stored
  value in this same step, never awaiting the refresh.
* `.fetchPath` — `age ≤ STALE_THRESHOLD`: the call fell through to
  `getCachedOrFetch` (line 190) and awaits its cache read; the entry is
  present and fresh, so the step settles with a cache hit.
* `.bgDone` event — the running background refresh settles: `setCache`
  writes the fresh value with a new timestamp and the `finally` releases
  the lock (lines 211-219).

The clock `now` is held fixed across the burst of concurrent calls (the
calls overlap in time, so they observe the same `Date.now()` up to the
staleness granularity of hours). -/

/-- The constant `STALE_THRESHOLD` (cache-manager.server.ts:8): 24 h in ms. -/
def STALE_THRESHOLD : Nat := 24 * 60 * 60 * 1000

/-- The constant `CACHE_TTL` (cache-manager.server.ts:7): 48 h in ms. -/
def CACHE_TTL : Nat := 48 * 60 * 60 * 1000

/-- Program counter of one `getCachedOrFetchStale` caller. -/
inductive StalePc where
  | start
  | haveStale
  | fetchPath
  | done (v : Nat)
deriving DecidableEq, Repr

/-- Shared state: every caller's program counter, the cache entry
(`val`, `ts`), the per-key refresh lock, whether a background refresh
body is running, and the number of `fetchFn` invocations. -/
structure StaleConfig where
  pcs : List StalePc
  val : Nat
  ts : Nat
  lock : Bool
  bg : Bool
  cnt : Nat
deriving DecidableEq, Repr

/-- A scheduler event: caller `i` runs its next atomic block, or the
running background refresh completes. -/
inductive StaleAct where
  | caller (i : Nat)
  | bgDone
deriving DecidableEq, Repr

/-- One caller's next atomic block. `now` is the fixed clock. -/
def staleCallerStep (now : Nat) (cfg : StaleConfig) :
    StalePc → StalePc × StaleConfig
  | .start => (.haveStale, cfg)
  | .haveStale =>
    if cfg.ts + STALE_THRESHOLD < now then
      if cfg.lock then (.done cfg.val, cfg)
      else (.done cfg.val, { cfg with lock := true, bg := true, cnt := cfg.cnt + 1 })
    else (.fetchPath, cfg)
  | .fetchPath => (.done cfg.val, cfg)
  | .done v => (.done v, cfg)

/-- One scheduler step (disabled events are no-ops). -/
def staleStep (now freshV : Nat) (cfg : StaleConfig) : StaleAct → StaleConfig
  | .caller i =>
    match cfg.pcs[i]? with
    | some pc =>
      let s := staleCallerStep now cfg pc
      { s.2 with pcs := s.2.pcs.set i s.1 }
    | none => cfg
  | .bgDone =>
    if cfg.bg then { cfg with val := freshV, ts := now, lock := false, bg := false }
    else cfg

/-- Run a schedule. -/
def staleRun (now freshV : Nat) (cfg : StaleConfig) : List StaleAct → StaleConfig
  | [] => cfg
  | a :: rest => staleRun now freshV (staleStep now freshV cfg a) rest

/-- Initial state: `n` concurrent callers on a key whose entry holds `v0` with
timestamp `t0`; no refresh running. -/
def staleInit (n v0 t0 : Nat) : StaleConfig :=
  { pcs := List.replicate n .start, val := v0, ts := t0
    lock := false, bg := false, cnt := 0 }

def isStaleSettled : StalePc → Bool
  | .done _ => true
  | _ => false

/-- The scenario is complete: every caller settled and no background
refresh is still running. -/
def staleFinished (cfg : StaleConfig) : Bool :=
  cfg.pcs.all isStaleSettled && !cfg.bg

/-- Invariant: the per-key lock admits at most one refresh, so the fetch
count never exceeds one; the three phases are before the refresh is
triggered, refresh running, and refresh completed. -/
def staleInv (now v0 t0 freshV n : Nat) (cfg : StaleConfig) : Prop :=
  cfg.pcs.length = n ∧
  ((cfg.cnt = 0 ∧ cfg.lock = false ∧ cfg.bg = false ∧ cfg.ts = t0 ∧ cfg.val = v0 ∧
      ∀ pc ∈ cfg.pcs, pc = .start ∨ pc = .haveStale) ∨
   (cfg.cnt = 1 ∧ cfg.lock = true ∧ cfg.bg = true ∧ cfg.ts = t0 ∧ cfg.val = v0 ∧
      ∀ pc ∈ cfg.pcs, pc = .start ∨ pc = .haveStale ∨ pc = .done v0) ∨
   (cfg.cnt = 1 ∧ cfg.lock = false ∧ cfg.bg = false ∧ cfg.ts = now ∧ cfg.val = freshV ∧
      ∀ pc ∈ cfg.pcs, pc = .start ∨ pc = .haveStale ∨ pc = .fetchPath ∨
        pc = .done v0 ∨ pc = .done freshV))

theorem allowed_set {P : StalePc → Prop} {l : List StalePc} {i : Nat} {a : StalePc}
    (hl : ∀ pc ∈ l, P pc) (ha : P a) : ∀ pc ∈ l.set i a, P pc := by
  intro pc h
  rcases List.mem_or_eq_of_mem_set h with h' | h'
  · exact hl pc h'
  · exact h' ▸ ha

theorem staleStep_caller_some (now freshV : Nat) (cfg : StaleConfig) (i : Nat)
    (pc : StalePc) (h : cfg.pcs[i]? = some pc) :
    staleStep now freshV cfg (.caller i) =
      { (staleCallerStep now cfg pc).2 with
        pcs := (staleCallerStep now cfg pc).2.pcs.set i (staleCallerStep now cfg pc).1 } := by
  simp [staleStep, h]

theorem staleInv_step (now v0 t0 freshV n : Nat) (hstale : t0 + STALE_THRESHOLD < now)
    (cfg : StaleConfig) (a : StaleAct) (h : staleInv now v0 t0 freshV n cfg) :
    staleInv now v0 t0 freshV n (staleStep now freshV cfg a) := by
  obtain ⟨hlen, hph⟩ := h
  cases a with
  | bgDone =>
    rcases hph with ⟨hc, hl, hb, hts, hv, hpc⟩ | ⟨hc, hl, hb, hts, hv, hpc⟩ |
      ⟨hc, hl, hb, hts, hv, hpc⟩
    · rw [show staleStep now freshV cfg .bgDone = cfg by simp [staleStep, hb]]
      exact ⟨hlen, Or.inl ⟨hc, hl, hb, hts, hv, hpc⟩⟩
    · rw [show staleStep now freshV cfg .bgDone =
          { cfg with val := freshV, ts := now, lock := false, bg := false } by
        simp [staleStep, hb]]
      refine ⟨hlen, Or.inr (Or.inr ⟨hc, rfl, rfl, rfl, rfl, ?_⟩)⟩
      intro pc hm
      rcases hpc pc hm with h' | h' | h' <;> simp [h']
    · rw [show staleStep now freshV cfg .bgDone = cfg by simp [staleStep, hb]]
      exact ⟨hlen, Or.inr (Or.inr ⟨hc, hl, hb, hts, hv, hpc⟩)⟩
  | caller i =>
    cases hip : cfg.pcs[i]? with
    | none =>
      rw [show staleStep now freshV cfg (.caller i) = cfg by simp [staleStep, hip]]
      exact ⟨hlen, hph⟩
    | some pc =>
      have hmem : pc ∈ cfg.pcs := List.getElem?_mem hip
      rw [staleStep_caller_some now freshV cfg i pc hip]
      rcases hph with ⟨hc, hl, hb, hts, hv, hpc⟩ | ⟨hc, hl, hb, hts, hv, hpc⟩ |
        ⟨hc, hl, hb, hts, hv, hpc⟩
      · -- phase 1: no refresh triggered yet; entry stale
        have hst : cfg.ts + STALE_THRESHOLD < now := hts ▸ hstale
        rcases hpc pc hmem with rfl | rfl
        · rw [show staleCallerStep now cfg .start = (.haveStale, cfg) from rfl]
          exact ⟨by simp [hlen], Or.inl ⟨hc, hl, hb, hts, hv,
            allowed_set hpc (Or.inr rfl)⟩⟩
        · rw [show staleCallerStep now cfg .haveStale =
              (.done cfg.val, { cfg with lock := true, bg := true, cnt := cfg.cnt + 1 })
              by simp [staleCallerStep, hst, hl]]
          refine ⟨by simp [hlen], Or.inr (Or.inl ⟨by simp [hc], rfl, rfl,
            by simp [hts], by simp [hv], ?_⟩)⟩
          exact allowed_set (fun pc' h' => (hpc pc' h').imp id Or.inl)
            (Or.inr (Or.inr (by simp [hv])))
      · -- phase 2: refresh in flight, lock held; entry still stale
        have hst : cfg.ts + STALE_THRESHOLD < now := hts ▸ hstale
        rcases hpc pc hmem with rfl | rfl | rfl
        · rw [show staleCallerStep now cfg .start = (.haveStale, cfg) from rfl]
          exact ⟨by simp [hlen], Or.inr (Or.inl ⟨hc, hl, hb, hts, hv,
            allowed_set hpc (Or.inr (Or.inl rfl))⟩)⟩
        · rw [show staleCallerStep now cfg .haveStale = (.done cfg.val, cfg) by
            simp [staleCallerStep, hst, hl]]
          exact ⟨by simp [hlen], Or.inr (Or.inl ⟨hc, hl, hb, hts, hv,
            allowed_set hpc (Or.inr (Or.inr (by simp [hv])))⟩)⟩
        · rw [show staleCallerStep now cfg (.done v0) = (.done v0, cfg) from rfl]
          exact ⟨by simp [hlen], Or.inr (Or.inl ⟨hc, hl, hb, hts, hv,
            allowed_set hpc (Or.inr (Or.inr rfl))⟩)⟩
      · -- phase 3: refresh completed; entry fresh
        have hfr : ¬(cfg.ts + STALE_THRESHOLD < now) := by rw [hts]; omega
        rcases hpc pc hmem with rfl | rfl | rfl | rfl | rfl
        · rw [show staleCallerStep now cfg .start = (.haveStale, cfg) from rfl]
          exact ⟨by simp [hlen], Or.inr (Or.inr ⟨hc, hl, hb, hts, hv,
            allowed_set hpc (Or.inr (Or.inl rfl))⟩)⟩
        · rw [show staleCallerStep now cfg .haveStale = (.fetchPath, cfg) by
            simp [staleCallerStep, hfr]]
          exact ⟨by simp [hlen], Or.inr (Or.inr ⟨hc, hl, hb, hts, hv,
            allowed_set hpc (Or.inr (Or.inr (Or.inl rfl)))⟩)⟩
        · rw [show staleCallerStep now cfg .fetchPath = (.done cfg.val, cfg) from rfl]
          exact ⟨by simp [hlen], Or.inr (Or.inr ⟨hc, hl, hb, hts, hv,
            allowed_set hpc (Or.inr (Or.inr (Or.inr (Or.inr (by simp [hv])))))⟩)⟩
        · rw [show staleCallerStep now cfg (.done v0) = (.done v0, cfg) from rfl]
          exact ⟨by simp [hlen], Or.inr (Or.inr ⟨hc, hl, hb, hts, hv,
            allowed_set hpc (Or.inr (Or.inr (Or.inr (Or.inl rfl))))⟩)⟩
        · rw [show staleCallerStep now cfg (.done freshV) = (.done freshV, cfg) from rfl]
          exact ⟨by simp [hlen], Or.inr (Or.inr ⟨hc, hl, hb, hts, hv,
            allowed_set hpc (Or.inr (Or.inr (Or.inr (Or.inr rfl))))⟩)⟩

theorem staleInv_run (now v0 t0 freshV n : Nat) (hstale : t0 + STALE_THRESHOLD < now)
    (acts : List StaleAct) (cfg : StaleConfig) (h : staleInv now v0 t0 freshV n cfg) :
    staleInv now v0 t0 freshV n (staleRun now freshV cfg acts) := by
  induction acts generalizing cfg with
  | nil => exact h
  | cons a rest ih => exact ih _ (staleInv_step now v0 t0 freshV n hstale cfg a h)

/-- C3: for a key whose entry is older than the staleness threshold but
younger than the TTL, (a) every complete schedule of any positive number
of concurrent `getCachedOrFetchStale` calls performs exactly one `fetchFn`
invocation — the per-key refresh lock is checked and acquired atomically,
so at most one `refreshInBackground` body runs, and the one refresh is
triggered by whichever caller first reaches the age check; and (b) a
caller whose age check sees a stale entry settles in that very step with
the currently stored value, regardless of the lock state — it never
awaits `fetchFn` and writes nothing to the cache entry. -/
theorem getCachedOrFetchStale_single_refresh
    (n v0 t0 freshV now : Nat) (hn : 1 ≤ n)
    (hstale : t0 + STALE_THRESHOLD < now) (httl : now < t0 + CACHE_TTL)
    (acts : List StaleAct)
    (hdone : staleFinished (staleRun now freshV (staleInit n v0 t0) acts) = true) :
    (staleRun now freshV (staleInit n v0 t0) acts).cnt = 1 ∧
    (∀ (cfg : StaleConfig) (i : Nat), cfg.pcs[i]? = some .haveStale →
      cfg.ts + STALE_THRESHOLD < now →
      (staleStep now freshV cfg (.caller i)).pcs[i]? = some (.done cfg.val) ∧
      (staleStep now freshV cfg (.caller i)).val = cfg.val ∧
      (staleStep now freshV cfg (.caller i)).ts = cfg.ts) := by
  constructor
  · have hinv := staleInv_run now v0 t0 freshV n hstale acts (staleInit n v0 t0)
      ⟨by simp [staleInit], Or.inl ⟨rfl, rfl, rfl, rfl, rfl, by
        intro pc hm
        exact Or.inl (List.eq_of_mem_replicate (by simpa [staleInit] using hm))⟩⟩
    rw [staleFinished, Bool.and_eq_true] at hdone
    have hall := List.all_eq_true.mp hdone.1
    have hbg : (staleRun now freshV (staleInit n v0 t0) acts).bg = false := by
      have := hdone.2
      simp at this
      exact this
    obtain ⟨hlen, hph⟩ := hinv
    have hne : (staleRun now freshV (staleInit n v0 t0) acts).pcs ≠ [] := by
      intro he
      rw [he] at hlen
      simp at hlen
      omega
    obtain ⟨pc0, hpc0⟩ := List.exists_mem_of_ne_nil _ hne
    have hset := hall pc0 hpc0
    rcases hph with ⟨hc, hl, hb, hts, hv, hpc⟩ | ⟨hc, hl, hb, hts, hv, hpc⟩ |
      ⟨hc, hl, hb, hts, hv, hpc⟩
    · rcases hpc pc0 hpc0 with rfl | rfl <;> simp [isStaleSettled] at hset
    · rw [hb] at hbg
      cases hbg
    · exact hc
  · intro cfg i hpc hst
    have hlt : i < cfg.pcs.length := by
      by_contra hge
      rw [List.getElem?_eq_none (by omega)] at hpc
      cases hpc
    rw [staleStep_caller_some now freshV cfg i _ hpc]
    by_cases hl : cfg.lock
    · rw [show staleCallerStep now cfg .haveStale = (.done cfg.val, cfg) by
        simp [staleCallerStep, hst, hl]]
      exact ⟨List.getElem?_set_eq_of_lt _ hlt, rfl, rfl⟩
    · rw [show staleCallerStep now cfg .haveStale =
          (.done cfg.val, { cfg with lock := true, bg := true, cnt := cfg.cnt + 1 }) by
        simp [staleCallerStep, hst, hl]]
      exact ⟨List.getElem?_set_eq_of_lt _ hlt, rfl, rfl⟩

/-- Witness: two concurrent stale reads (entry aged just past the
threshold, still inside the TTL) complete with one background refresh;
the run makes exactly one `fetchFn` invocation. -/
theorem getCachedOrFetchStale_single_refresh_witness :
    1 ≤ 2 ∧ 0 + STALE_THRESHOLD < STALE_THRESHOLD + 1 ∧
    STALE_THRESHOLD + 1 < 0 + CACHE_TTL ∧
    staleFinished (staleRun (STALE_THRESHOLD + 1) 9 (staleInit 2 5 0)
      [.caller 0, .caller 1, .caller 0, .caller 1, .bgDone]) = true ∧
    (staleRun (STALE_THRESHOLD + 1) 9 (staleInit 2 5 0)
      [.caller 0, .caller 1, .caller 0, .caller 1, .bgDone]).cnt = 1 :=
  ⟨by decide, by decide, by decide, by decide,
   (getCachedOrFetchStale_single_refresh 2 5 0 9 (STALE_THRESHOLD + 1) (by decide)
      (by decide) (by decide) [.caller 0, .caller 1, .caller 0, .caller 1, .bgDone]
      (by decide)).1⟩

/-- Witness for `executeRefresh_retry_state` at a concrete state: from one
prior failure, a second failure schedules a fresh 3-hour timer; from four
prior failures, the fifth failure schedules nothing and resets. -/
theorem executeRefresh_retry_state_witness :
    ((executeRefresh ⟨1, none, 7⟩ .cron false).consecutiveFailures = 2 ∧
      (executeRefresh ⟨1, none, 7⟩ .cron false).retryTimer = some (7, RETRY_DELAY_MS)) ∧
    ((executeRefresh ⟨4, some (3, RETRY_DELAY_MS), 9⟩ .retry false).consecutiveFailures = 0 ∧
      (executeRefresh ⟨4, some (3, RETRY_DELAY_MS), 9⟩ .retry false).retryTimer =
        some (3, RETRY_DELAY_MS)) :=
  ⟨(executeRefresh_retry_state ⟨1, none, 7⟩ .cron).2.1 (by decide),
   (executeRefresh_retry_state ⟨4, some (3, RETRY_DELAY_MS), 9⟩ .retry).2.2.1 (by decide)⟩

end Genveje
